import Mathlib

/-!
# Verification of the `nlsh.py` command-resolution pipeline

A shallow embedding of the command-resolution pipeline of `nlsh.py`:
response parsing (`extract_json_array`, `process_output`), candidate
validation (`command_exists`, the list comprehension of `process_output`),
the secondary probe (`is_command_valid`) and the executor
(`execute_command`, its appends to `command_history`).

Python strings are modelled as `List Char`; the library routines the source
calls (`str.strip`, `str.split`, `re.search` on the fixed pattern of line 52,
`json.loads`) are embedded below, restricted to ASCII whitespace classes
(the source only ever feeds them backend text; Unicode-whitespace corners of
CPython are out of scope and noted where they are elided).  Fallible Python
code (uncaught exceptions) is modelled with `Except`; external subprocess
calls (`command -v`, the `--help` probe, the shell run) are oracles passed
as function arguments.
-/

namespace Nlsh

/-- ASCII whitespace as `str.strip` / `str.split` treat it:
space, tab, newline, carriage return, vertical tab, form feed. -/
def pyIsSpace (c : Char) : Bool :=
  c = ' ' || c = '\t' || c = '\n' || c = '\r' || c = '\x0b' || c = '\x0c'

/-- Python `str.strip()`: drop leading and trailing whitespace. -/
def pyStrip (s : List Char) : List Char :=
  (((s.dropWhile pyIsSpace).reverse).dropWhile pyIsSpace).reverse

/-- Helper for `pySplit`: accumulates the current (reversed) token. -/
def pySplitAux : List Char → List Char → List (List Char)
  | [], cur => if cur.isEmpty then [] else [cur.reverse]
  | c :: rest, cur =>
    if pyIsSpace c then
      if cur.isEmpty then pySplitAux rest []
      else cur.reverse :: pySplitAux rest []
    else pySplitAux rest (c :: cur)

/-- Python `str.split()` with no separator: split on whitespace runs,
discarding empty tokens. -/
def pySplit (s : List Char) : List (List Char) := pySplitAux s []

/-- Whitespace as the JSON decoder skips it (`json.decoder.WHITESPACE`):
space, tab, newline, carriage return only. -/
def jsonIsWs (c : Char) : Bool :=
  c = ' ' || c = '\t' || c = '\n' || c = '\r'

def jsonSkipWs (s : List Char) : List Char := s.dropWhile jsonIsWs

/-- The values `json.loads` can produce, as the pipeline consumes them.
Numbers keep their lexeme (the pipeline never does arithmetic on them);
objects keep their member list in textual order (duplicate keys allowed;
dictionary lookup takes the last occurrence, as CPython's dict build does). -/
inductive JsonVal where
  | str  : List Char → JsonVal
  | num  : List Char → JsonVal
  | bool : Bool → JsonVal
  | null : JsonVal
  | arr  : List JsonVal → JsonVal
  | obj  : List (List Char × JsonVal) → JsonVal
deriving Repr

def jsonIsStr : JsonVal → Bool
  | .str _ => true
  | _ => false

/-- Lookup in a decoded object, last binding wins (CPython dict semantics
for duplicate JSON keys). -/
def pyDictGet (fields : List (List Char × JsonVal)) (key : List Char) :
    Option JsonVal :=
  (fields.reverse.find? (fun f => f.1 == key)).map (fun f => f.2)

/-- Whether a number lexeme denotes zero: mantissa digits (before any
exponent marker) exist and are all `0`.  `NaN` / `Infinity` lexemes have no
digits there and come out truthy, as in Python. -/
def pyNumZero (lex : List Char) : Bool :=
  let m := (lex.takeWhile (fun c => c ≠ 'e' ∧ c ≠ 'E')).filter Char.isDigit
  !m.isEmpty && m.all (fun c => c = '0')

/-- Python truthiness of a decoded value (`if not commands:`). -/
def pyFalsy : JsonVal → Bool
  | .str s => s.isEmpty
  | .num lex => pyNumZero lex
  | .bool b => !b
  | .null => true
  | .arr vs => vs.isEmpty
  | .obj fs => fs.isEmpty

/-- `if not commands:` where `commands` is `None` or a decoded value. -/
def pyFalsyOpt : Option JsonVal → Bool
  | none => true
  | some v => pyFalsy v

/-! ## The JSON decoder (`json.loads`)

Embedded recursive-descent decoder for the strict default mode of
`json.loads`: the four JSON whitespace characters between tokens, no
trailing commas, string escapes `\" \\ \/ \b \f \n \r \t \uXXXX`, unescaped
control characters rejected, numbers per the JSON grammar (lexeme kept),
and the CPython extensions `NaN`, `Infinity`, `-Infinity`.  Lone surrogate
`\u` escapes — which CPython keeps as unpaired surrogate code units, a
value `Char` cannot hold — are rejected here; no input in this development
contains them. -/

/-- Value of one hexadecimal digit (both cases accepted). -/
def hexVal (c : Char) : Option Nat :=
  if c.isDigit then some (c.toNat - 48)
  else if 'a' ≤ c ∧ c ≤ 'f' then some (c.toNat - 87)
  else if 'A' ≤ c ∧ c ≤ 'F' then some (c.toNat - 55)
  else none

/-- Value of a four-hex-digit escape payload. -/
def hex4 (h1 h2 h3 h4 : Char) : Option Nat :=
  match hexVal h1, hexVal h2, hexVal h3, hexVal h4 with
  | some a, some b, some c, some d => some (4096 * a + 256 * b + 16 * c + d)
  | _, _, _, _ => none

def escChar : Char → Option Char
  | '"' => some '"'
  | '\\' => some '\\'
  | '/' => some '/'
  | 'b' => some '\x08'
  | 'f' => some '\x0c'
  | 'n' => some '\n'
  | 'r' => some '\r'
  | 't' => some '\t'
  | _ => none

/-- String body scanner, called after the opening quote: returns the decoded
content and the remainder after the closing quote.  Fuelled (each step
consumes at least one character, so `s.length + 1` fuel always suffices). -/
def parseJStringF : Nat → List Char → Option (List Char × List Char)
  | 0, _ => none
  | _ + 1, [] => none
  | _ + 1, '"' :: rest => some ([], rest)
  | fuel + 1, '\\' :: esc => by
    exact match esc with
    | 'u' :: h1 :: h2 :: h3 :: h4 :: rest => do
      let n ← hex4 h1 h2 h3 h4
      if 0xD800 ≤ n ∧ n < 0xDC00 then
        -- high surrogate: CPython pairs it with an immediately following
        -- low \u escape; a lone high surrogate is unrepresentable here
        match rest with
        | '\\' :: 'u' :: g1 :: g2 :: g3 :: g4 :: rest2 => do
          let m ← hex4 g1 g2 g3 g4
          if 0xDC00 ≤ m ∧ m < 0xE000 then
            let code := 0x10000 + (n - 0xD800) * 0x400 + (m - 0xDC00)
            if code.isValidChar then
              let (cs, r) ← parseJStringF fuel rest2
              pure (Char.ofNat code :: cs, r)
            else none
          else none
        | _ => none
      else if 0xDC00 ≤ n ∧ n < 0xE000 then none
      else
        if n.isValidChar then do
          let (cs, r) ← parseJStringF fuel rest
          pure (Char.ofNat n :: cs, r)
        else none
    | e :: rest => do
      let c ← escChar e
      let (cs, r) ← parseJStringF fuel rest
      pure (c :: cs, r)
    | [] => none
  | fuel + 1, c :: rest =>
    if c.toNat < 0x20 then none
    else do
      let (cs, r) ← parseJStringF fuel rest
      pure (c :: cs, r)

def parseJString (s : List Char) : Option (List Char × List Char) :=
  parseJStringF (s.length + 1) s

/-- Number scanner, per the `json` module's NUMBER_RE: optional minus,
`0` or nonzero-led digits, optional `.digits`, optional exponent; the
fraction and exponent are only consumed when complete. -/
def parseNumber (s : List Char) : Option (JsonVal × List Char) :=
  let (sign, s1) :=
    match s with
    | '-' :: r => (['-'], r)
    | _ => (([] : List Char), s)
  match s1 with
  | '0' :: r => some (numTail (sign ++ ['0']) r)
  | c :: r =>
    if c.isDigit ∧ c ≠ '0' then
      let ds := r.takeWhile Char.isDigit
      some (numTail (sign ++ c :: ds) (r.dropWhile Char.isDigit))
    else none
  | [] => none
where
  /-- Consume an optional fraction then an optional exponent. -/
  numTail (intPart : List Char) (s : List Char) : JsonVal × List Char :=
    let (frac, s2) :=
      match s with
      | '.' :: d :: r =>
        if d.isDigit then
          ('.' :: d :: r.takeWhile Char.isDigit, r.dropWhile Char.isDigit)
        else (([] : List Char), s)
      | _ => (([] : List Char), s)
    let (expo, s3) :=
      match s2 with
      | e :: '+' :: d :: r =>
        if (e = 'e' ∨ e = 'E') ∧ d.isDigit then
          (e :: '+' :: d :: r.takeWhile Char.isDigit, r.dropWhile Char.isDigit)
        else (([] : List Char), s2)
      | e :: '-' :: d :: r =>
        if (e = 'e' ∨ e = 'E') ∧ d.isDigit then
          (e :: '-' :: d :: r.takeWhile Char.isDigit, r.dropWhile Char.isDigit)
        else (([] : List Char), s2)
      | e :: d :: r =>
        if (e = 'e' ∨ e = 'E') ∧ d.isDigit then
          (e :: d :: r.takeWhile Char.isDigit, r.dropWhile Char.isDigit)
        else (([] : List Char), s2)
      | _ => (([] : List Char), s2)
    (.num (intPart ++ frac ++ expo), s3)

/-- Match a literal keyword prefix, yielding the remainder. -/
def stripLit : List Char → List Char → Option (List Char)
  | [], s => some s
  | _ :: _, [] => none
  | l :: ls, c :: cs => if c = l then stripLit ls cs else none

mutual

/-- One JSON value, leading whitespace allowed; returns the remainder.
Dispatch on the first non-whitespace character, then the keyword literals
`true` / `false` / `null` and the CPython extensions, then a number —
the same discrimination the `json` scanner performs. -/
def parseVal : Nat → List Char → Option (JsonVal × List Char)
  | 0, _ => none
  | fuel + 1, s =>
    match jsonSkipWs s with
    | [] => none
    | c :: r =>
      if c = '\x7b' then
        match jsonSkipWs r with
        | '\x7d' :: r2 => some (.obj [], r2)
        | _ => parseMembers fuel r []
      else if c = '[' then
        match jsonSkipWs r with
        | ']' :: r2 => some (.arr [], r2)
        | _ => parseItems fuel r []
      else if c = '"' then
        (parseJString r).map (fun p => (.str p.1, p.2))
      else
        match stripLit ("true").toList (c :: r) with
        | some r2 => some (.bool true, r2)
        | none =>
        match stripLit ("false").toList (c :: r) with
        | some r2 => some (.bool false, r2)
        | none =>
        match stripLit ("null").toList (c :: r) with
        | some r2 => some (.null, r2)
        | none =>
        match stripLit ("NaN").toList (c :: r) with
        | some r2 => some (.num ("NaN").toList, r2)
        | none =>
        match stripLit ("Infinity").toList (c :: r) with
        | some r2 => some (.num ("Infinity").toList, r2)
        | none =>
        match stripLit ("-Infinity").toList (c :: r) with
        | some r2 => some (.num ("-Infinity").toList, r2)
        | none => parseNumber (c :: r)

/-- Array items after `[` (first item pending), accumulating decoded items. -/
def parseItems : Nat → List Char → List JsonVal →
    Option (JsonVal × List Char)
  | 0, _, _ => none
  | fuel + 1, s, acc =>
    match parseVal fuel s with
    | none => none
    | some (v, rest) =>
      match jsonSkipWs rest with
      | ',' :: r2 => parseItems fuel r2 (acc ++ [v])
      | ']' :: r2 => some (.arr (acc ++ [v]), r2)
      | _ => none

/-- Object members after `{` (first member pending). -/
def parseMembers : Nat → List Char → List (List Char × JsonVal) →
    Option (JsonVal × List Char)
  | 0, _, _ => none
  | fuel + 1, s, acc =>
    match jsonSkipWs s with
    | '"' :: r =>
      match parseJString r with
      | none => none
      | some (key, rest) =>
        match jsonSkipWs rest with
        | ':' :: r2 =>
          match parseVal fuel r2 with
          | none => none
          | some (v, rest2) =>
            match jsonSkipWs rest2 with
            | ',' :: r3 => parseMembers fuel r3 (acc ++ [(key, v)])
            | '\x7d' :: r3 => some (.obj (acc ++ [(key, v)]), r3)
            | _ => none
        | _ => none
    | _ => none

end

/-- `json.loads`: decode one value, then require only whitespace to remain
("Extra data" otherwise).  The fuel bound `2 * length + 2` dominates the
recursion depth, which advances by at most two fuel steps per consumed
character. -/
def jsonLoads (s : List Char) : Option JsonVal :=
  match parseVal (2 * s.length + 2) s with
  | some (v, rest) => if (jsonSkipWs rest).isEmpty then some v else none
  | none => none

/-! ## The regex of line 52

`re.search(r"\[\s*{.*?}\s*\]", raw_output, re.DOTALL)`.

The pattern is deterministic modulo the two quantifier choices, and those
collapse: the greedy `\s*` runs cannot trade length for a match (a
whitespace character is neither `{` nor `]`), and the lazy `.*?` takes the
shortest body, i.e. the earliest `}` followed by whitespace and `]`.
`re.search` itself takes the leftmost start position admitting a match.
`\s` is the ASCII whitespace class (same six characters as `pyIsSpace`;
the Unicode members never occur in this development). -/

/-- `\[\s*{` anchored at the head: returns the consumed prefix and the
remainder after the `{`. -/
def matchStart : List Char → Option (List Char × List Char)
  | [] => none
  | c :: r =>
    if c = '[' then
      match r.dropWhile pyIsSpace with
      | d :: rest =>
        if d = '\x7b' then some ('[' :: (r.takeWhile pyIsSpace ++ ['\x7b']), rest)
        else none
      | [] => none
    else none

/-- `}\s*\]` anchored at the head: the consumed prefix and the remainder. -/
def closeHere : List Char → Option (List Char × List Char)
  | [] => none
  | c :: r =>
    if c = '\x7d' then
      match r.dropWhile pyIsSpace with
      | d :: rest =>
        if d = ']' then some ('\x7d' :: (r.takeWhile pyIsSpace ++ [']']), rest)
        else none
      | [] => none
    else none

/-- The lazy `.*?}\s*\]`: scan forward for the earliest close; returns the
consumed characters (body plus close). -/
def findClose : List Char → Option (List Char)
  | [] => none
  | c :: tl =>
    match closeHere (c :: tl) with
    | some (cl, _) => some cl
    | none => (findClose tl).map (fun m => c :: m)

/-- `re.search` over start positions, leftmost first; yields the matched
span. -/
def regexSearch : List Char → Option (List Char)
  | [] => none
  | c :: tl =>
    match matchStart (c :: tl) with
    | some (pre, rest) =>
      match findClose rest with
      | some body => some (pre ++ body)
      | none => regexSearch tl
    | none => regexSearch tl

/-! ## The pipeline (`nlsh.py` lines 25–123) -/

/-- One proposed command, the `{"command": text}` records the pipeline
passes around (Spec §3 "Candidate"). -/
structure Candidate where
  command : List Char
deriving Repr, DecidableEq

/-- Uncaught Python exceptions the pipeline can raise. -/
inductive PyErr where
  /-- `cmd["command"]` on a dict without the key (line 74). -/
  | keyError
  /-- subscripting / iterating a value that does not support it (line 74). -/
  | typeError
  /-- `.split()` on a non-string command value (line 29). -/
  | attributeError
  /-- `command.split()[0]` on a token-free string (line 29). -/
  | indexError
deriving Repr, DecidableEq

def cmdKey : List Char := ("command").toList

/-- `extract_json_array` (lines 46–60): regex-locate a span, `json.loads`
it; `None` when the regex finds nothing or on `JSONDecodeError`. -/
def extract_json_array (raw_output : List Char) : Option JsonVal :=
  match regexSearch raw_output with
  | some span => jsonLoads span
  | none => none

/-- Lines 66–72 of `process_output`: the `commands` value after the
fallback (`if not commands: commands = [raw_output.strip()]`) and the
plain-string wrap (`[{"command": cmd} for cmd in commands]` when
`commands` is a list of strings only). -/
def commandsAfterWrap (raw : List Char) : JsonVal :=
  let c1 : JsonVal :=
    match extract_json_array raw with
    | none => .arr [.str (pyStrip raw)]
    | some v => if pyFalsy v then .arr [.str (pyStrip raw)] else v
  match c1 with
  | .arr vs =>
    if vs.all jsonIsStr then .arr (vs.map (fun v => .obj [(cmdKey, v)]))
    else .arr vs
  | v => v

/-- `command_exists` (lines 25–31): `command.split()[0]` — `IndexError`
when the command has no token — then `command -v` on the first token.
The subprocess is the oracle `cmdv` (true iff its return code is 0). -/
def command_exists (cmdv : List Char → Bool) (command : List Char) :
    Except PyErr Bool :=
  match pySplit command with
  | [] => .error .indexError
  | t :: _ => .ok (cmdv t)

/-- The comprehension of line 74, element by element in Python's
left-to-right order: `cmd["command"]` (KeyError on a keyless dict,
TypeError when `cmd` is not a dict), then `command_exists` on the value
(AttributeError when the value is not a string).  Survivors keep their
dict's command text. -/
def filterValid (cmdv : List Char → Bool) :
    List JsonVal → Except PyErr (List Candidate)
  | [] => .ok []
  | v :: rest =>
    match v with
    | .obj fields =>
      match pyDictGet fields cmdKey with
      | none => .error .keyError
      | some (.str s) =>
        match command_exists cmdv s with
        | .error e => .error e
        | .ok b =>
          (filterValid cmdv rest).map (fun l => if b then ⟨s⟩ :: l else l)
      | some _ => .error .attributeError
    | _ => .error .typeError

/-- `process_output` (lines 62–80): extract / fall back / wrap, filter by
`command_exists`, and return `None` (modelled `Option.none`) when no
candidate survives.  A non-list decoded value would be iterated or
subscripted and raise TypeError, which the non-array branch records (the
regex guarantees the decoded value is an array, so that branch is
unreachable in fact). -/
def process_output (cmdv : List Char → Bool) (raw : List Char) :
    Except PyErr (Option (List Candidate)) :=
  match commandsAfterWrap raw with
  | .arr vs =>
    (filterValid cmdv vs).map (fun l => if l.isEmpty then none else some l)
  | _ => .error .typeError

/-- The candidate list of the Response Parser (Spec §4.1 `parse`):
`extract_json_array` composed with the pre-validation steps of
`process_output` (lines 66–72), with each element's `command` value read
off as line 74 does, but before the `command_exists` filter. -/
def materialize : List JsonVal → Except PyErr (List Candidate)
  | [] => .ok []
  | .obj fields :: rest =>
    match pyDictGet fields cmdKey with
    | some (.str s) => (materialize rest).map (fun l => ⟨s⟩ :: l)
    | some _ => .error .attributeError
    | none => .error .keyError
  | .str _ :: _ => .error .typeError
  | _ :: _ => .error .typeError

/-- `parse`: the Response Parser stage of the pipeline. -/
def parseCandidates (raw : List Char) : Except PyErr (List Candidate) :=
  match commandsAfterWrap raw with
  | .arr vs => materialize vs
  | _ => .error .typeError

/-- The Command Validator stage (Spec §4.2): the line-74 comprehension over
an already-materialized candidate list. -/
def validateCandidates (cmdv : List Char → Bool) :
    List Candidate → Except PyErr (List Candidate)
  | [] => .ok []
  | c :: rest =>
    match command_exists cmdv c.command with
    | .error e => .error e
    | .ok b =>
      (validateCandidates cmdv rest).map (fun l => if b then c :: l else l)

/-- The predicate the validator keeps a candidate by: its first
whitespace-separated token resolves under the lookup oracle. -/
def firstTokResolves (cmdv : List Char → Bool) (c : Candidate) : Bool :=
  match pySplit c.command with
  | t :: _ => cmdv t
  | [] => false

/-- The `command` values of an array of objects, when every element is an
object carrying a string under `"command"`. -/
def commandsOf : List JsonVal → Option (List (List Char))
  | [] => some []
  | .obj fields :: rest =>
    match pyDictGet fields cmdKey with
    | some (.str s) => (commandsOf rest).map (fun l => s :: l)
    | _ => none
  | _ :: _ => none

/-- `jsonLoads` yields an array: the claim-C4 notion of a JSON-array
substring. -/
def jsonLoadsIsArr (s : List Char) : Bool :=
  match jsonLoads s with
  | some (.arr _) => true
  | _ => false

/-! ## The executor (lines 33–44 and 102–123) -/

/-- Execution outcome statuses recorded in `command_history`. -/
inductive CmdStatus where
  | success
  | failed
  | error
deriving Repr, DecidableEq

/-- One record of `command_history` (Spec §3 "HistoryEntry"). -/
structure HistoryEntry where
  command : List Char
  status : CmdStatus
  output : List Char
deriving Repr, DecidableEq

/-- Outcome of `subprocess.run(command, shell=True, ...)`: a completed
process (return code, stdout, stderr), or an exception whose text is the
launch-failure description. -/
inductive RunOutcome where
  | ok : Int → List Char → List Char → RunOutcome
  | exn : List Char → RunOutcome

/-- `is_command_valid` (lines 33–44): multi-token commands are probed with
`[first_token, "--help"]` — the oracle `probe` gives the return code, or
`none` when the subprocess call raises — and pass only on return code 0;
single-token (or empty) commands pass unconditionally. -/
def is_command_valid (probe : List Char → Option Int) (command : List Char) :
    Bool :=
  match pySplit command with
  | p :: _ :: _ =>
    match probe p with
    | some rc => rc == 0
    | none => false
  | _ => true

/-- `execute_command` (lines 102–123) acting on `command_history`: skip
when `is_command_valid` rejects; otherwise run through the shell and append
one entry — status `success` with stdout for return code 0, `failed` with
stderr for a nonzero code, `error` with the exception text when the run
raises. -/
def execute_command (probe : List Char → Option Int)
    (run : List Char → RunOutcome) (command : List Char)
    (history : List HistoryEntry) : List HistoryEntry :=
  if is_command_valid probe command then
    match run command with
    | .ok rc out err =>
      history ++ [⟨command, if rc == 0 then .success else .failed,
                   if rc == 0 then out else err⟩]
    | .exn msg => history ++ [⟨command, .error, msg⟩]
  else history


/-! ## Lemmas about the regex search -/
theorem mem_of_dropWhile {a : Char} {p : Char → Bool} {l : List Char}
    (h : a ∈ l.dropWhile p) : a ∈ l :=
  (List.dropWhile_sublist p (l := l)).mem h

theorem matchStart_shape {s : List Char} {pre rest : List Char}
    (h : matchStart s = some (pre, rest)) :
    ∃ r, s = '[' :: r ∧ r.dropWhile pyIsSpace = '\x7b' :: rest ∧
      pre = '[' :: (r.takeWhile pyIsSpace ++ ['\x7b']) := by
  match s with
  | [] => simp [matchStart] at h
  | c :: r =>
    by_cases hc : c = '['
    · subst hc
      rcases hdw : r.dropWhile pyIsSpace with _ | ⟨d, rest'⟩
      · simp [matchStart, hdw] at h
      · by_cases hd : d = '\x7b'
        · subst hd
          simp [matchStart, hdw] at h
          exact ⟨r, rfl, by rw [hdw, h.2], by rw [← h.1]⟩
        · simp [matchStart, hdw, hd] at h
    · simp [matchStart, hc] at h

theorem closeHere_shape {s : List Char} {cl rest : List Char}
    (h : closeHere s = some (cl, rest)) :
    ∃ r, s = '\x7d' :: r ∧ r.dropWhile pyIsSpace = ']' :: rest ∧
      cl = '\x7d' :: (r.takeWhile pyIsSpace ++ [']']) ∧ s = cl ++ rest := by
  match s with
  | [] => simp [closeHere] at h
  | c :: r =>
    by_cases hc : c = '\x7d'
    · subst hc
      rcases hdw : r.dropWhile pyIsSpace with _ | ⟨d, rest'⟩
      · simp [closeHere, hdw] at h
      · by_cases hd : d = ']'
        · subst hd
          simp [closeHere, hdw] at h
          refine ⟨r, rfl, by rw [hdw, h.2], by rw [← h.1], ?_⟩
          rw [← h.1, ← h.2]
          have := List.takeWhile_append_dropWhile (p := pyIsSpace) (l := r)
          calc '\x7d' :: r = '\x7d' :: (r.takeWhile pyIsSpace ++ r.dropWhile pyIsSpace) := by rw [this]
            _ = '\x7d' :: (r.takeWhile pyIsSpace ++ [']']) ++ rest' := by rw [hdw]; simp
        · simp [closeHere, hdw, hd] at h
    · simp [closeHere, hc] at h

theorem findClose_prefix {s m : List Char} (h : findClose s = some m) :
    ∃ t, s = m ++ t := by
  induction s generalizing m with
  | nil => simp [findClose] at h
  | cons c tl ih =>
    rcases hch : closeHere (c :: tl) with _ | ⟨cl, rest⟩
    · rcases hfc : findClose tl with _ | m'
      · simp [findClose, hch, hfc] at h
      · simp [findClose, hch, hfc] at h
        obtain ⟨t, ht⟩ := ih hfc
        exact ⟨t, by rw [← h, ht]; simp⟩
    · simp only [findClose, hch, Option.some.injEq] at h
      obtain ⟨r, _, _, _, hdecomp⟩ := closeHere_shape hch
      exact ⟨rest, by rw [← h]; exact hdecomp⟩

theorem regexSearch_shape {s m : List Char} (h : regexSearch s = some m) :
    (∃ u t, s = u ++ m ++ t) ∧ ∃ r, m = '[' :: r := by
  induction s generalizing m with
  | nil => simp [regexSearch] at h
  | cons c tl ih =>
    rcases hms : matchStart (c :: tl) with _ | ⟨pre, rest⟩
    · simp only [regexSearch, hms] at h
      obtain ⟨⟨u, t, hut⟩, hr⟩ := ih h
      exact ⟨⟨c :: u, t, by rw [hut]; simp⟩, hr⟩
    · rcases hfc : findClose rest with _ | body
      · simp only [regexSearch, hms, hfc] at h
        obtain ⟨⟨u, t, hut⟩, hr⟩ := ih h
        exact ⟨⟨c :: u, t, by rw [hut]; simp⟩, hr⟩
      · simp only [regexSearch, hms, hfc, Option.some.injEq] at h
        obtain ⟨r, hcr, hdw, hpre⟩ := matchStart_shape hms
        obtain ⟨t, ht⟩ := findClose_prefix hfc
        have hr : r = r.takeWhile pyIsSpace ++ ('\x7b' :: rest) := by
          conv_lhs => rw [← List.takeWhile_append_dropWhile (p := pyIsSpace) (l := r)]
          rw [hdw]
        refine ⟨⟨[], t, ?_⟩, ⟨r.takeWhile pyIsSpace ++ ['\x7b'] ++ body, by rw [← h, hpre]; simp⟩⟩
        rw [hcr]
        subst h
        rw [hpre]
        conv_lhs => rw [hr]
        rw [ht]
        simp


/-! ## Lemmas about the JSON decoder -/
theorem parseItems_arr {fuel : Nat} {s : List Char} {acc : List JsonVal}
    {v : JsonVal} {rest : List Char}
    (h : parseItems fuel s acc = some (v, rest)) : ∃ vs, v = .arr vs := by
  induction fuel generalizing s acc v rest with
  | zero => simp [parseItems] at h
  | succ fuel ih =>
    rcases h1 : parseVal fuel s with _ | ⟨v', rest'⟩
    · simp [parseItems, h1] at h
    · rcases hjs : jsonSkipWs rest' with _ | ⟨d, r2⟩
      · simp [parseItems, h1, hjs] at h
      · by_cases hd1 : d = ','
        · subst hd1
          simp only [parseItems, h1, hjs] at h
          exact ih h
        · by_cases hd2 : d = ']'
          · subst hd2
            simp only [parseItems, h1, hjs] at h
            simp at h
            exact ⟨acc ++ [v'], h.1.symm⟩
          · simp [parseItems, h1, hjs, hd1, hd2] at h

theorem parseVal_bracket {fuel : Nat} {r : List Char} {v : JsonVal}
    {rest : List Char} (h : parseVal fuel ('[' :: r) = some (v, rest)) :
    ∃ vs, v = .arr vs := by
  match fuel with
  | 0 => simp [parseVal] at h
  | fuel + 1 =>
    have hskip : jsonSkipWs ('[' :: r) = '[' :: r := by
      simp [jsonSkipWs, jsonIsWs]
    rcases hjs : jsonSkipWs r with _ | ⟨d, r2⟩
    · simp only [parseVal, hskip, hjs] at h
      simp at h
      exact parseItems_arr h
    · by_cases hd : d = ']'
      · subst hd
        simp only [parseVal, hskip, hjs] at h
        simp at h
        exact ⟨[], h.1.symm⟩
      · simp only [parseVal, hskip, hjs] at h
        simp [hd] at h
        exact parseItems_arr h

theorem jsonLoads_bracket {r : List Char} {v : JsonVal}
    (h : jsonLoads ('[' :: r) = some v) : ∃ vs, v = .arr vs := by
  unfold jsonLoads at h
  rcases hp : parseVal (2 * ('[' :: r).length + 2) ('[' :: r) with _ | ⟨v', rest⟩
  · rw [hp] at h; simp at h
  · rw [hp] at h
    by_cases he : (jsonSkipWs rest).isEmpty
    · simp [he] at h
      obtain ⟨vs, hvs⟩ := parseVal_bracket hp
      exact ⟨vs, by rw [← h, hvs]⟩
    · simp [he] at h


/-! ## Lemmas about the parse stage -/
theorem parse_fallback {raw : List Char}
    (h : pyFalsyOpt (extract_json_array raw) = true) :
    parseCandidates raw = .ok [⟨pyStrip raw⟩] := by
  rcases he : extract_json_array raw with _ | v
  · simp [parseCandidates, commandsAfterWrap, he, materialize, pyDictGet, jsonIsStr, Except.map]
  · rw [he] at h
    simp only [pyFalsyOpt] at h
    simp [parseCandidates, commandsAfterWrap, he, h, materialize, pyDictGet, jsonIsStr, Except.map]

theorem commandsOf_head_obj {v : JsonVal} {rest : List JsonVal}
    {cmds : List (List Char)} (h : commandsOf (v :: rest) = some cmds) :
    ∃ fields, v = .obj fields := by
  cases v with
  | obj fields => exact ⟨fields, rfl⟩
  | str s => simp [commandsOf] at h
  | num l => simp [commandsOf] at h
  | bool b => simp [commandsOf] at h
  | null => simp [commandsOf] at h
  | arr vs => simp [commandsOf] at h

theorem materialize_of_commandsOf {vs : List JsonVal} {cmds : List (List Char)}
    (h : commandsOf vs = some cmds) :
    materialize vs = .ok (cmds.map Candidate.mk) := by
  induction vs generalizing cmds with
  | nil => simp [commandsOf] at h; simp [materialize, ← h]
  | cons v rest ih =>
    obtain ⟨fields, rfl⟩ := commandsOf_head_obj h
    rcases hg : pyDictGet fields cmdKey with _ | w
    · simp [commandsOf, hg] at h
    · cases w with
      | str s =>
        rcases hc : commandsOf rest with _ | l
        · simp [commandsOf, hg, hc] at h
        · simp only [commandsOf, hg, hc, Option.map_some] at h
          simp at h
          simp [materialize, hg, ih hc, ← h, Except.map]
      | num l => simp [commandsOf, hg] at h
      | bool b => simp [commandsOf, hg] at h
      | null => simp [commandsOf, hg] at h
      | arr l => simp [commandsOf, hg] at h
      | obj l => simp [commandsOf, hg] at h

theorem parse_extracted {raw : List Char} {vs : List JsonVal}
    {cmds : List (List Char)}
    (he : extract_json_array raw = some (.arr vs)) (hne : vs ≠ [])
    (hc : commandsOf vs = some cmds) :
    parseCandidates raw = .ok (cmds.map Candidate.mk) := by
  have hfalsy : pyFalsy (.arr vs) = false := by
    simp [pyFalsy, List.isEmpty_iff]; exact hne
  have hallstr : vs.all jsonIsStr = false := by
    rcases vs with _ | ⟨v0, vs'⟩
    · exact absurd rfl hne
    · obtain ⟨fields, rfl⟩ := commandsOf_head_obj hc
      simp [jsonIsStr]
  simp only [parseCandidates, commandsAfterWrap, he, hfalsy, if_false,
    Bool.false_eq_true, hallstr]
  exact materialize_of_commandsOf hc


/-! ## Lemmas about materialized candidates -/
theorem materialize_length {vs : List JsonVal} {cs : List Candidate}
    (h : materialize vs = .ok cs) : cs.length = vs.length := by
  induction vs generalizing cs with
  | nil => simp [materialize] at h; simp [← h]
  | cons v rest ih =>
    cases v with
    | obj fields =>
      rcases hg : pyDictGet fields cmdKey with _ | w
      · simp [materialize, hg] at h
      · cases w with
        | str s =>
          rcases hm : materialize rest with e | l
          · simp [materialize, hg, hm, Except.map] at h
          · simp [materialize, hg, hm, Except.map] at h
            simp [← h, ih hm]
        | num l => simp [materialize, hg] at h
        | bool b => simp [materialize, hg] at h
        | null => simp [materialize, hg] at h
        | arr l => simp [materialize, hg] at h
        | obj l => simp [materialize, hg] at h
    | str s => simp [materialize] at h
    | num l => simp [materialize] at h
    | bool b => simp [materialize] at h
    | null => simp [materialize] at h
    | arr l => simp [materialize] at h

theorem materialize_mem {vs : List JsonVal} {cs : List Candidate}
    {c : Candidate} (h : materialize vs = .ok cs) (hc : c ∈ cs) :
    ∃ fields, .obj fields ∈ vs ∧ pyDictGet fields cmdKey = some (.str c.command) := by
  induction vs generalizing cs with
  | nil => simp [materialize] at h; subst h; simp at hc
  | cons v rest ih =>
    cases v with
    | obj fields =>
      rcases hg : pyDictGet fields cmdKey with _ | w
      · simp [materialize, hg] at h
      · cases w with
        | str s =>
          rcases hm : materialize rest with e | l
          · simp [materialize, hg, hm, Except.map] at h
          · simp only [materialize, hg, hm, Except.map] at h
            simp at h
            subst h
            rcases List.mem_cons.mp hc with hceq | hmem
            · exact ⟨fields, List.mem_cons_self _ _, by rw [hceq]; exact hg⟩
            · obtain ⟨f2, hf2, hg2⟩ := ih hm hmem
              exact ⟨f2, List.mem_cons_of_mem _ hf2, hg2⟩
        | num l => simp [materialize, hg] at h
        | bool b => simp [materialize, hg] at h
        | null => simp [materialize, hg] at h
        | arr l => simp [materialize, hg] at h
        | obj l => simp [materialize, hg] at h
    | str s => simp [materialize] at h
    | num l => simp [materialize] at h
    | bool b => simp [materialize] at h
    | null => simp [materialize] at h
    | arr l => simp [materialize] at h

theorem pyDictGet_single {v : JsonVal} :
    pyDictGet [(cmdKey, v)] cmdKey = some v := by
  simp [pyDictGet]

theorem materialize_wrap_mem {vs : List JsonVal} {cs : List Candidate}
    {c : Candidate}
    (h : materialize (vs.map (fun v => .obj [(cmdKey, v)])) = .ok cs)
    (hc : c ∈ cs) : JsonVal.str c.command ∈ vs := by
  induction vs generalizing cs with
  | nil => simp [materialize] at h; subst h; simp at hc
  | cons v rest ih =>
    simp only [List.map_cons, materialize, pyDictGet_single] at h
    cases v with
    | str s =>
      rcases hm : materialize (rest.map (fun v => .obj [(cmdKey, v)])) with e | l
      · rw [hm] at h; simp [Except.map] at h
      · rw [hm] at h; simp [Except.map] at h
        subst h
        rcases List.mem_cons.mp hc with hceq | hmem
        · rw [hceq]; exact List.mem_cons_self _ _
        · exact List.mem_cons_of_mem _ (ih hm hmem)
    | num l => simp at h
    | bool b => simp at h
    | null => simp at h
    | arr l => simp at h
    | obj l => simp at h


/-! ## Lemmas about the validator comprehension -/
/-- A well-behaved element for the line-74 comprehension: an object whose
`command` value is a string with at least one token, so evaluating it
neither raises nor stops the scan. -/
def benignObj (v : JsonVal) : Prop :=
  ∃ fields s, v = .obj fields ∧ pyDictGet fields cmdKey = some (.str s) ∧
    pySplit s ≠ []

theorem filterValid_keyError {cmdv : List Char → Bool} {pre post : List JsonVal}
    {fields : List (List Char × JsonVal)}
    (hpre : ∀ v ∈ pre, benignObj v)
    (hmiss : pyDictGet fields cmdKey = none) :
    filterValid cmdv (pre ++ .obj fields :: post) = .error .keyError := by
  induction pre with
  | nil => simp [filterValid, hmiss]
  | cons v rest ih =>
    obtain ⟨flds, s, rfl, hget, htok⟩ := hpre v (List.mem_cons_self _ _)
    rcases hs : pySplit s with _ | ⟨t, ts⟩
    · exact absurd hs htok
    · have ihh := ih (fun w hw => hpre w (List.mem_cons_of_mem _ hw))
      simp only [List.cons_append, List.append_eq, filterValid, hget,
        command_exists, hs, ihh]
      rfl

theorem command_exists_tok {cmdv : List Char → Bool} {s t : List Char}
    {ts : List (List Char)} (hs : pySplit s = t :: ts) :
    command_exists cmdv s = .ok (cmdv t) := by
  simp [command_exists, hs]

theorem validate_filter {cmdv : List Char → Bool} {cands : List Candidate}
    (h : ∀ c ∈ cands, pySplit c.command ≠ []) :
    validateCandidates cmdv cands = .ok (cands.filter (firstTokResolves cmdv)) := by
  induction cands with
  | nil => simp [validateCandidates]
  | cons c rest ih =>
    rcases hs : pySplit c.command with _ | ⟨t, ts⟩
    · exact absurd hs (h c (List.mem_cons_self _ _))
    · have hrest := ih (fun d hd => h d (List.mem_cons_of_mem _ hd))
      simp only [validateCandidates, command_exists_tok hs, hrest, Except.map,
        List.filter_cons]
      have hf : firstTokResolves cmdv c = cmdv t := by
        simp [firstTokResolves, hs]
      rw [hf]


/-! ## Shape of successful parses -/
theorem arr_not_falsy_ne_nil {vs : List JsonVal}
    (h : pyFalsy (.arr vs) = false) : vs ≠ [] := by
  simp [pyFalsy] at h
  exact h

theorem parse_ok_shapes {raw : List Char} {cs : List Candidate}
    (h : parseCandidates raw = .ok cs) :
    (pyFalsyOpt (extract_json_array raw) = true ∧ cs = [⟨pyStrip raw⟩]) ∨
    (∃ vs, extract_json_array raw = some (.arr vs) ∧ vs ≠ [] ∧
      ((vs.all jsonIsStr = true ∧
          materialize (vs.map (fun v => .obj [(cmdKey, v)])) = .ok cs) ∨
       (vs.all jsonIsStr = false ∧ materialize vs = .ok cs))) := by
  by_cases hf : pyFalsyOpt (extract_json_array raw) = true
  · have h2 := parse_fallback hf
    rw [h] at h2
    injection h2 with h2
    exact Or.inl ⟨hf, h2⟩
  · rcases he : extract_json_array raw with _ | v
    · rw [he] at hf; exact absurd rfl hf
    · have hfv : pyFalsy v = false := by
        rw [he] at hf
        simp only [pyFalsyOpt] at hf
        exact Bool.not_eq_true _ ▸ Bool.eq_false_iff.mpr hf
      cases v with
      | arr vs =>
        have hne := arr_not_falsy_ne_nil hfv
        by_cases hall : vs.all jsonIsStr
        · refine Or.inr ⟨vs, rfl, hne, Or.inl ⟨hall, ?_⟩⟩
          simp only [parseCandidates, commandsAfterWrap, he, hfv,
            Bool.false_eq_true, if_false, hall, if_true] at h
          exact h
        · refine Or.inr ⟨vs, rfl, hne, Or.inr ⟨Bool.eq_false_iff.mpr hall, ?_⟩⟩
          simp only [parseCandidates, commandsAfterWrap, he, hfv,
            Bool.false_eq_true, if_false, Bool.eq_false_iff.mpr hall] at h
          simpa using h
      | str s => simp [parseCandidates, commandsAfterWrap, he, hfv] at h
      | num l => simp [parseCandidates, commandsAfterWrap, he, hfv] at h
      | bool b => simp [parseCandidates, commandsAfterWrap, he, hfv] at h
      | null => simp [parseCandidates, commandsAfterWrap, he, hfv] at h
      | obj fs => simp [parseCandidates, commandsAfterWrap, he, hfv] at h

theorem parse_ok_ne_nil {raw : List Char} {cs : List Candidate}
    (h : parseCandidates raw = .ok cs) : cs ≠ [] := by
  rcases parse_ok_shapes h with ⟨_, rfl⟩ | ⟨vs, _, hne, ⟨_, hm⟩ | ⟨_, hm⟩⟩
  · simp
  · have := materialize_length hm
    simp only [List.length_map] at this
    intro hnil
    rw [hnil] at this
    simp at this
    exact hne (List.length_eq_zero.mp this.symm)
  · have := materialize_length hm
    intro hnil
    rw [hnil] at this
    simp at this
    exact hne (List.length_eq_zero.mp this.symm)


/-! ## Locating spans inside the raw text -/
theorem regexSearch_mem_brace {s m : List Char} (h : regexSearch s = some m) :
    '\x7b' ∈ s := by
  induction s generalizing m with
  | nil => simp [regexSearch] at h
  | cons c tl ih =>
    rcases hms : matchStart (c :: tl) with _ | ⟨pre, rest⟩
    · simp only [regexSearch, hms] at h
      exact List.mem_cons_of_mem _ (ih h)
    · rcases hfc : findClose rest with _ | body
      · simp only [regexSearch, hms, hfc] at h
        exact List.mem_cons_of_mem _ (ih h)
      · obtain ⟨r, hcr, hdw, _⟩ := matchStart_shape hms
        have : '\x7b' ∈ r.dropWhile pyIsSpace := by
          rw [hdw]; exact List.mem_cons_self _ _
        have hr : '\x7b' ∈ r := mem_of_dropWhile this
        rw [hcr]
        exact List.mem_cons_of_mem _ hr

theorem no_brace_extract_none {raw : List Char} (h : '\x7b' ∉ raw) :
    extract_json_array raw = none := by
  unfold extract_json_array
  rcases hr : regexSearch raw with _ | span
  · rfl
  · exact absurd (regexSearch_mem_brace hr) h

theorem slice_bounds {l u m t : List Char} (h : l = u ++ m ++ t) :
    (l.drop u.length).take m.length = m ∧
      u.length ≤ l.length ∧ m.length ≤ l.length := by
  subst h
  refine ⟨?_, ?_, ?_⟩
  · rw [List.append_assoc, List.drop_left, List.take_left]
  · simp only [List.length_append]; omega
  · simp only [List.length_append]; omega

/-- The Response Parser's universal fallback (claim C4): a raw string none
of whose substrings decodes as a JSON array parses to the single trimmed
whole-raw candidate, without error. -/
theorem no_array_substring_fallback {raw : List Char}
    (h : ∀ i ≤ raw.length, ∀ j ≤ raw.length,
      jsonLoadsIsArr ((raw.drop i).take j) = false) :
    parseCandidates raw = .ok [⟨pyStrip raw⟩] := by
  apply parse_fallback
  rcases he : extract_json_array raw with _ | v
  · rfl
  · exfalso
    unfold extract_json_array at he
    rcases hr : regexSearch raw with _ | span
    · rw [hr] at he; exact Option.noConfusion he
    · rw [hr] at he
      change jsonLoads span = some v at he
      obtain ⟨⟨u, t, hut⟩, ⟨r', hspan⟩⟩ := regexSearch_shape hr
      obtain ⟨vs, hvs⟩ := jsonLoads_bracket (show jsonLoads ('[' :: r') = some v by
        rw [← hspan]; exact he)
      have harr : jsonLoadsIsArr span = true := by
        unfold jsonLoadsIsArr
        rw [he, hvs]
      obtain ⟨hslice, hu, hm⟩ := slice_bounds hut
      have := h u.length hu span.length hm
      rw [hslice, harr] at this
      exact Bool.noConfusion this


/-! ## Lemmas about `process_output` and the executor -/
theorem all_jsonIsStr_false_of_obj {vs : List JsonVal}
    {fields : List (List Char × JsonVal)} (h : JsonVal.obj fields ∈ vs) :
    vs.all jsonIsStr = false := by
  by_cases hall : vs.all jsonIsStr
  · have := List.all_eq_true.mp hall _ h
    simp [jsonIsStr] at this
  · exact Bool.eq_false_iff.mpr hall

theorem process_output_keyError {cmdv : List Char → Bool} {raw : List Char}
    {pre post : List JsonVal} {fields : List (List Char × JsonVal)}
    (he : extract_json_array raw = some (.arr (pre ++ .obj fields :: post)))
    (hpre : ∀ v ∈ pre, benignObj v)
    (hmiss : pyDictGet fields cmdKey = none) :
    process_output cmdv raw = .error .keyError := by
  have hfv : pyFalsy (.arr (pre ++ .obj fields :: post)) = false := by
    simp [pyFalsy]
  have hall : (pre ++ .obj fields :: post).all jsonIsStr = false :=
    @all_jsonIsStr_false_of_obj (pre ++ .obj fields :: post) fields (by simp)
  simp only [process_output, commandsAfterWrap, he, hfv, Bool.false_eq_true,
    if_false, hall]
  rw [filterValid_keyError hpre hmiss]
  rfl

/-! executor lemmas -/

theorem execute_skips_failing_probe {probe : List Char → Option Int}
    {run : List Char → RunOutcome} {command t1 t2 : List Char}
    {ts : List (List Char)} {history : List HistoryEntry}
    (hsplit : pySplit command = t1 :: t2 :: ts)
    (hprobe : ∀ rc, probe t1 = some rc → rc ≠ 0) :
    execute_command probe run command history = history := by
  have hinv : is_command_valid probe command = false := by
    rcases hp : probe t1 with _ | rc
    · simp [is_command_valid, hsplit, hp]
    · simp [is_command_valid, hsplit, hp]
      exact hprobe rc hp
  simp [execute_command, hinv]

theorem execute_appends_one {probe : List Char → Option Int}
    {run : List Char → RunOutcome} {command : List Char}
    {history : List HistoryEntry}
    (h : is_command_valid probe command = true) :
    ∃ e, execute_command probe run command history = history ++ [e] ∧
      e.command = command := by
  rcases hr : run command with ⟨rc, out, err⟩ | msg
  · exact ⟨⟨command, if rc == 0 then .success else .failed,
      if rc == 0 then out else err⟩, by simp [execute_command, h, hr], rfl⟩
  · exact ⟨⟨command, .error, msg⟩, by simp [execute_command, h, hr], rfl⟩

theorem execute_outcomes {probe : List Char → Option Int}
    {run : List Char → RunOutcome} {command : List Char}
    {history : List HistoryEntry}
    (h : is_command_valid probe command = true) :
    (∀ out err, run command = .ok 0 out err →
      execute_command probe run command history =
        history ++ [⟨command, .success, out⟩]) ∧
    (∀ rc out err, run command = .ok rc out err → rc ≠ 0 →
      execute_command probe run command history =
        history ++ [⟨command, .failed, err⟩]) ∧
    (∀ msg, run command = .exn msg →
      execute_command probe run command history =
        history ++ [⟨command, .error, msg⟩]) := by
  refine ⟨?_, ?_, ?_⟩
  · intro out err hr
    simp [execute_command, h, hr]
  · intro rc out err hr hrc
    have : (rc == 0) = false := by simpa using hrc
    simp [execute_command, h, hr, this]
  · intro msg hr
    simp [execute_command, h, hr]


/-! ## Provenance of parsed candidates -/
theorem parse_candidate_provenance {raw : List Char} {cs : List Candidate}
    {c : Candidate} (h : parseCandidates raw = .ok cs) (hc : c ∈ cs) :
    c.command = pyStrip raw ∨
    (∃ vs fields, extract_json_array raw = some (.arr vs) ∧
      JsonVal.obj fields ∈ vs ∧
      pyDictGet fields cmdKey = some (.str c.command)) ∨
    (∃ vs, extract_json_array raw = some (.arr vs) ∧
      JsonVal.str c.command ∈ vs) := by
  rcases parse_ok_shapes h with ⟨_, rfl⟩ | ⟨vs, he, hne, ⟨_, hm⟩ | ⟨_, hm⟩⟩
  · left
    rw [List.mem_singleton.mp hc]
  · right; right
    exact ⟨vs, he, materialize_wrap_mem hm hc⟩
  · right; left
    obtain ⟨fields, hf, hg⟩ := materialize_mem hm hc
    exact ⟨vs, fields, he, hf, hg⟩

/-! ## The claims -/

/-- Claim C1, counterexample: the raw text below is, in its entirety, a
syntactically valid JSON array of one `command` object (its command string
is `a\x7d]`), yet `parse` does not extract that command: the lazy regex
span ends at the first `\x7d`-whitespace-`]` sequence, which sits inside
the string value, the truncated span fails to decode, and the whole raw
text falls through to the fallback single candidate. -/
theorem C1_counterexample :
    jsonLoads (("[\x7b\"command\": \"a\x7d]\"\x7d]").toList) =
      some (.arr [.obj [(cmdKey, .str (("a\x7d]").toList))]]) ∧
    parseCandidates (("[\x7b\"command\": \"a\x7d]\"\x7d]").toList) =
      .ok [⟨("[\x7b\"command\": \"a\x7d]\"\x7d]").toList⟩] ∧
    ([⟨("[\x7b\"command\": \"a\x7d]\"\x7d]").toList⟩] : List Candidate) ≠
      [⟨("a\x7d]").toList⟩] :=
  ⟨rfl, rfl, by decide⟩

/-- Claim C1 (amended): whenever the regex-located span — leftmost `[`
followed by optional whitespace and `\x7b`, through the earliest
`\x7d`-whitespace-`]` close — decodes as a JSON array of objects each
carrying a string under `"command"`, `parse` extracts exactly those
commands, in the array's original order. -/
theorem C1_extracted_commands_in_order {raw : List Char} {vs : List JsonVal}
    {cmds : List (List Char)}
    (he : extract_json_array raw = some (.arr vs)) (hne : vs ≠ [])
    (hc : commandsOf vs = some cmds) :
    parseCandidates raw = .ok (cmds.map Candidate.mk) :=
  parse_extracted he hne hc

/-- Witness for C1 (amended) at a backend reply with surrounding noise. -/
theorem C1_extracted_commands_in_order_witness :
    parseCandidates
      (("Sure! [\x7b\"command\":\"ls -la\"\x7d,\x7b\"command\":\"pwd\"\x7d] Hope that helps!").toList) =
      .ok [⟨("ls -la").toList⟩, ⟨("pwd").toList⟩] :=
  @C1_extracted_commands_in_order
    (("Sure! [\x7b\"command\":\"ls -la\"\x7d,\x7b\"command\":\"pwd\"\x7d] Hope that helps!").toList)
    [.obj [(cmdKey, .str (("ls -la").toList))],
     .obj [(cmdKey, .str (("pwd").toList))]]
    [("ls -la").toList, ("pwd").toList]
    rfl (by simp) rfl


/-- Claim C2, counterexample: the raw text is exactly a JSON array of the
plain strings `ls` and `pwd`, yet `parse` yields a single fallback
candidate holding the whole raw text, not one Candidate per string: the
extraction regex demands an object (`\x7b`) right after the `[`, so a
plain-string array is never located. -/
theorem C2_counterexample :
    jsonLoads (("[\"ls\", \"pwd\"]").toList) =
      some (.arr [.str (("ls").toList), .str (("pwd").toList)]) ∧
    parseCandidates (("[\"ls\", \"pwd\"]").toList) =
      .ok [⟨("[\"ls\", \"pwd\"]").toList⟩] ∧
    ([⟨("[\"ls\", \"pwd\"]").toList⟩] : List Candidate) ≠
      [⟨("ls").toList⟩, ⟨("pwd").toList⟩] :=
  ⟨rfl, rfl, by decide⟩

/-- Claim C2 (amended): a raw string without any `\x7b` — in particular one
whose only JSON content is an array of plain strings — is never located by
the extraction regex; `parse` falls back to one candidate holding the
trimmed whole raw text.  The string-wrapping step of lines 71–72 only ever
fires for that fallback singleton. -/
theorem C2_plain_string_array_not_located {raw : List Char}
    (h : '\x7b' ∉ raw) :
    parseCandidates raw = .ok [⟨pyStrip raw⟩] :=
  parse_fallback (by rw [no_brace_extract_none h]; rfl)

/-- Witness for C2 (amended) at a plain-string JSON array. -/
theorem C2_plain_string_array_not_located_witness :
    parseCandidates (("[\"echo\", \"date\"]").toList) =
      .ok [⟨("[\"echo\", \"date\"]").toList⟩] :=
  C2_plain_string_array_not_located (by decide)

/-- Claim C3, counterexample: `parse` on `"[]"`, whole or embedded, takes
the whole-raw-as-single-command fallback path — the candidate is the
trimmed raw text itself — rather than yielding a distinct empty failure:
the regex never matches an array without an object element. -/
theorem C3_counterexample :
    parseCandidates (("[]").toList) = .ok [⟨("[]").toList⟩] ∧
    parseCandidates (("x [] y").toList) = .ok [⟨("x [] y").toList⟩] :=
  ⟨rfl, rfl⟩

/-- Claim C3 (amended): `parse` on `"[]"` (embedded or whole) takes the
fallback path; no empty-array hard failure exists, because a successful
parse never yields an empty CandidateList in the first place — the
truthiness check of line 67 reroutes every falsy decode to the fallback
singleton. -/
theorem C3_parse_never_empty {raw : List Char} {cs : List Candidate}
    (h : parseCandidates raw = .ok cs) : cs ≠ [] :=
  parse_ok_ne_nil h

/-- Witness for C3 (amended). -/
theorem C3_parse_never_empty_witness :
    ([⟨("a").toList⟩] : List Candidate) ≠ [] :=
  @C3_parse_never_empty (("a").toList) [⟨("a").toList⟩] rfl

/-- Claim C4 (confirmed): for a raw string none of whose substrings
decodes as a JSON array, `parse` returns, without error, the single
candidate holding the whole raw string trimmed. -/
theorem C4_no_json_array_fallback {raw : List Char}
    (h : ∀ i ≤ raw.length, ∀ j ≤ raw.length,
      jsonLoadsIsArr ((raw.drop i).take j) = false) :
    parseCandidates raw = .ok [⟨pyStrip raw⟩] :=
  no_array_substring_fallback h

/-- Witness for C4 at a prose-only backend reply. -/
theorem C4_no_json_array_fallback_witness :
    parseCandidates (("do it").toList) = .ok [⟨("do it").toList⟩] :=
  C4_no_json_array_fallback (by decide)

/-- Claim C5, counterexample: a located array holding a well-formed
command object followed by an object with no `command` key does not drop
the keyless object — `process_output` aborts with a KeyError from
`cmd["command"]`, even though the first object would have survived. -/
theorem C5_counterexample :
    process_output (fun _ => true)
      (("[\x7b\"command\": \"ls\"\x7d, \x7b\x7d]").toList) =
      .error .keyError ∧
    ∀ x : Option (List Candidate),
      (Except.error PyErr.keyError : Except PyErr (Option (List Candidate))) ≠
        .ok x :=
  ⟨rfl, fun _ h => Except.noConfusion h⟩

/-- Claim C5 (amended): when the located array contains an object without
a `command` key, preceded only by objects whose command values are strings
with at least one token, `process_output` raises KeyError (modelled as
`Except.error .keyError`) instead of dropping the object, regardless of
the lookup oracle. -/
theorem C5_missing_command_key_raises {cmdv : List Char → Bool}
    {raw : List Char} {pre post : List JsonVal}
    {fields : List (List Char × JsonVal)}
    (he : extract_json_array raw = some (.arr (pre ++ .obj fields :: post)))
    (hpre : ∀ v ∈ pre, benignObj v)
    (hmiss : pyDictGet fields cmdKey = none) :
    process_output cmdv raw = .error .keyError :=
  process_output_keyError he hpre hmiss

/-- Witness for C5 (amended). -/
theorem C5_missing_command_key_raises_witness :
    process_output (fun _ => false)
      (("[\x7b\"command\": \"du -h\"\x7d, \x7b\"note\": \"x\"\x7d]").toList) =
      .error .keyError :=
  @C5_missing_command_key_raises (fun _ => false)
    (("[\x7b\"command\": \"du -h\"\x7d, \x7b\"note\": \"x\"\x7d]").toList)
    [.obj [(cmdKey, .str (("du -h").toList))]]
    []
    [(("note").toList, .str (("x").toList))]
    rfl
    (by
      intro v hv
      simp only [List.mem_singleton] at hv
      subst hv
      exact ⟨_, ("du -h").toList, rfl, rfl, by decide⟩)
    rfl


/-- Claim C6 (confirmed): the validator is exactly the order-preserving
filter keeping the candidates whose first whitespace-separated token
resolves under the `command -v` oracle: the survivors are the filtered
list in input order, a sublist of the input (nothing added, no
reordering), and every candidate whose token resolves is kept. -/
theorem C6_validate_is_filter {cmdv : List Char → Bool}
    {cands : List Candidate}
    (h : ∀ c ∈ cands, pySplit c.command ≠ []) :
    validateCandidates cmdv cands =
      .ok (cands.filter (firstTokResolves cmdv)) ∧
    List.Sublist (cands.filter (firstTokResolves cmdv)) cands ∧
    ∀ c ∈ cands, firstTokResolves cmdv c = true →
      c ∈ cands.filter (firstTokResolves cmdv) :=
  ⟨validate_filter h, List.filter_sublist _,
    fun _ hc hf => List.mem_filter.mpr ⟨hc, hf⟩⟩

/-- Witness for C6: only `ls` resolves, so only `ls -la` survives. -/
theorem C6_validate_is_filter_witness :
    validateCandidates (fun t => t == ("ls").toList)
        [⟨("ls -la").toList⟩, ⟨("pwd").toList⟩] =
      .ok [⟨("ls -la").toList⟩] ∧
    List.Sublist [(⟨("ls -la").toList⟩ : Candidate)]
      [⟨("ls -la").toList⟩, ⟨("pwd").toList⟩] ∧
    ∀ c ∈ ([⟨("ls -la").toList⟩, ⟨("pwd").toList⟩] : List Candidate),
      firstTokResolves (fun t => t == ("ls").toList) c = true →
        c ∈ [(⟨("ls -la").toList⟩ : Candidate)] :=
  C6_validate_is_filter (by decide)

/-- Claim C7, counterexample: `git status` passes the existence check
(the oracle resolves everything), but its `--help` probe exits nonzero and
`execute_command` skips it entirely — nothing runs and nothing is
recorded — contradicting keep-if-executable-exists. -/
theorem C7_counterexample :
    command_exists (fun _ => true) (("git status").toList) = .ok true ∧
    execute_command (fun _ => some 1) (fun _ => .ok 0 (("fine").toList) [])
      (("git status").toList) [] = [] :=
  ⟨rfl, rfl⟩

/-- Claim C7 (amended): a multi-token command whose `--help` probe exits
nonzero (or raises) is skipped by `execute_command` — not executed, with
no history entry — regardless of the existence check's verdict. -/
theorem C7_failing_probe_skips {probe : List Char → Option Int}
    {run : List Char → RunOutcome} {command t1 t2 : List Char}
    {ts : List (List Char)} {history : List HistoryEntry}
    (hsplit : pySplit command = t1 :: t2 :: ts)
    (hprobe : ∀ rc, probe t1 = some rc → rc ≠ 0) :
    execute_command probe run command history = history :=
  execute_skips_failing_probe hsplit hprobe

/-- Witness for C7 (amended). -/
theorem C7_failing_probe_skips_witness :
    execute_command (fun _ => some 2) (fun _ => .ok 0 [] [])
      (("du -sh").toList) [] = [] :=
  @C7_failing_probe_skips (fun _ => some 2) (fun _ => .ok 0 [] [])
    (("du -sh").toList) (("du").toList) (("-sh").toList) [] []
    rfl (fun rc h => by simp at h; omega)

/-- Claim C8, counterexample: `make install` could run fine (the shell
oracle returns exit status 0), but the probe raises, `is_command_valid`
returns False and `execute_command` produces no HistoryEntry at all — the
claimed status mapping does not apply to every command. -/
theorem C8_counterexample :
    execute_command (fun _ => none) (fun _ => .ok 0 (("done").toList) [])
      (("make install").toList) [] = [] ∧
    ∀ e : HistoryEntry, ([] : List HistoryEntry) ≠ [e] :=
  ⟨rfl, fun _ h => List.noConfusion h⟩

/-- Claim C8 (amended): for every command that passes the validity
pre-check, `execute_command` appends the HistoryEntry the claim's mapping
prescribes: exit status 0 gives `success` with the captured standard
output, a nonzero status gives `failed` with the captured standard error,
and a launch failure gives `error` with the failure description. -/
theorem C8_entry_outcome_mapping {probe : List Char → Option Int}
    {run : List Char → RunOutcome} {command : List Char}
    {history : List HistoryEntry}
    (h : is_command_valid probe command = true) :
    (∀ out err, run command = .ok 0 out err →
      execute_command probe run command history =
        history ++ [⟨command, .success, out⟩]) ∧
    (∀ rc out err, run command = .ok rc out err → rc ≠ 0 →
      execute_command probe run command history =
        history ++ [⟨command, .failed, err⟩]) ∧
    (∀ msg, run command = .exn msg →
      execute_command probe run command history =
        history ++ [⟨command, .error, msg⟩]) :=
  execute_outcomes h

/-- Witness for C8 (amended), error case: the launch fails outright. -/
theorem C8_entry_outcome_mapping_witness :
    execute_command (fun _ => some 0) (fun _ => .exn (("spawn failure").toList))
      (("true").toList) [] =
      [⟨("true").toList, .error, ("spawn failure").toList⟩] :=
  (@C8_entry_outcome_mapping (fun _ => some 0)
    (fun _ => .exn (("spawn failure").toList))
    (("true").toList) [] rfl).2.2 _ rfl

/-- Claim C9, counterexample: a run of the Executor on `df -h` with a
nonzero probe answer appends nothing — the history is unchanged, so it is
not the case that every Executor run appends exactly one entry. -/
theorem C9_counterexample :
    execute_command (fun _ => some 3) (fun _ => .ok 0 [] [])
      (("df -h").toList)
      [⟨("pwd").toList, .success, ("/root").toList⟩] =
      [⟨("pwd").toList, .success, ("/root").toList⟩] ∧
    ([⟨("pwd").toList, .success, ("/root").toList⟩] : List HistoryEntry).length
      = 1 :=
  ⟨rfl, rfl⟩

/-- Claim C9 (amended): every Executor run that passes the validity
pre-check appends exactly one entry (whatever the outcome status), and
every previously recorded entry survives unchanged: the new history is
the old one with a single entry for this command appended. -/
theorem C9_valid_run_appends_exactly_one {probe : List Char → Option Int}
    {run : List Char → RunOutcome} {command : List Char}
    {history : List HistoryEntry}
    (h : is_command_valid probe command = true) :
    ∃ e, execute_command probe run command history = history ++ [e] ∧
      e.command = command :=
  execute_appends_one h

/-- Witness for C9 (amended), failed-status case. -/
theorem C9_valid_run_appends_exactly_one_witness :
    ∃ e, execute_command (fun _ => some 0)
      (fun _ => .ok 2 [] (("oops").toList)) (("ls -l").toList) [] =
        [] ++ [e] ∧ e.command = ("ls -l").toList :=
  C9_valid_run_appends_exactly_one rfl

/-- Claim C10, counterexample: on an empty raw string the fallback path
produces a candidate whose command is empty — empty after trimming too —
so the non-empty-command invariant does not hold of the Response Parser's
output. -/
theorem C10_counterexample :
    parseCandidates (("").toList) = .ok [⟨[]⟩] ∧
    pyStrip (Candidate.mk []).command = [] :=
  ⟨rfl, rfl⟩

/-- Claim C10 (amended): each candidate `parse` produces carries either
the trimmed whole raw text (fallback) or a string taken verbatim from the
located JSON array — the value under the object's `command` key, or a
plain string element as wrapped by lines 71–72; no non-emptiness of the
command is guaranteed in any of these cases. -/
theorem C10_candidate_provenance {raw : List Char} {cs : List Candidate}
    {c : Candidate} (h : parseCandidates raw = .ok cs) (hc : c ∈ cs) :
    c.command = pyStrip raw ∨
    (∃ vs fields, extract_json_array raw = some (.arr vs) ∧
      JsonVal.obj fields ∈ vs ∧
      pyDictGet fields cmdKey = some (.str c.command)) ∨
    (∃ vs, extract_json_array raw = some (.arr vs) ∧
      JsonVal.str c.command ∈ vs) :=
  parse_candidate_provenance h hc

/-- Witness for C10 (amended) at a prose raw string. -/
theorem C10_candidate_provenance_witness :
    (Candidate.mk (("pwd").toList)).command = pyStrip (("pwd").toList) ∨
    (∃ vs fields,
      extract_json_array (("pwd").toList) = some (.arr vs) ∧
      JsonVal.obj fields ∈ vs ∧
      pyDictGet fields cmdKey =
        some (.str (Candidate.mk (("pwd").toList)).command)) ∨
    (∃ vs, extract_json_array (("pwd").toList) = some (.arr vs) ∧
      JsonVal.str (Candidate.mk (("pwd").toList)).command ∈ vs) :=
  @C10_candidate_provenance (("pwd").toList) [⟨("pwd").toList⟩]
    ⟨("pwd").toList⟩ rfl (by simp)

end Nlsh
